import Mathlib

/-!
Verification of the Huffman compression tool
(`src/MultiThreadedFileCompressionTool.cpp`).

The embedding models the file's byte/character data as natural numbers
(byte values; the payload characters `'0'` and `'1'` are the bytes 48
and 49, and the newline delimiter is byte 10).  Strings are `List Nat`.
Fallible or undefined-behaviour paths (null-pointer dereference in the
decoder, `minHeap.top()` on an empty priority queue, premature end of
the serialized tree stream) are modelled with `Option`, `none` standing
for the C++ program's undefined behaviour.
-/

/-- Huffman tree (`struct HuffmanNode`).  The C++ node carries nullable
child pointers; the trees the program actually builds and serializes are
strict binary trees, which is exactly this inductive: a leaf holding a
byte value, or an internal node with two children.  The `frequency`
field is carried separately during construction (see `buildLoop`). -/
inductive HTree where
  | leaf : Nat → HTree
  | node : HTree → HTree → HTree
deriving DecidableEq, Repr

/-- `createHuffmanCodes` (lines 43-48): preorder traversal recording, for
each leaf, the accumulated code; `'0'` (48) is appended when descending
left and `'1'` (49) when descending right.  The result is the list of
`codeMap[ch] = code` assignments in execution order; the final map is
the last assignment for each key (`lookupCode`). -/
def createHuffmanCodes : HTree → List Nat → List (Nat × List Nat)
  | .leaf c, curr => [(c, curr)]
  | .node l r, curr =>
      createHuffmanCodes l (curr ++ [48]) ++ createHuffmanCodes r (curr ++ [49])

/-- Final value of `codeMap[c]` after `createHuffmanCodes(root, "", codeMap)`:
the last assignment with key `c` wins (`unordered_map` assignment). -/
def lookupCode (t : HTree) (c : Nat) : Option (List Nat) :=
  (((createHuffmanCodes t []).filter (fun q => q.1 == c)).getLast?).map Prod.snd

/-- The code table as used by `huffmanEncode` (line 61): `codeTable[ch]`
with `operator[]`, which yields the empty string for an absent key. -/
def codeTableOf (t : HTree) (c : Nat) : List Nat :=
  (lookupCode t c).getD []

/-- `huffmanEncode` (lines 59-63): append each input byte's code. -/
def huffmanEncode (data : List Nat) (table : Nat → List Nat) : List Nat :=
  (data.map table).flatten

/-- Decoder loop shared by `huffmanDecode` (lines 66-77) and
`threadedDecode` (lines 107-118): `currNode = (bit == '0') ? left : right`
then test `!currNode->leftChild && !currNode->rightChild`.  Starting from
a lone-leaf current node the C++ dereferences a null child: modelled as
`none`. -/
def huffmanDecodeAux (root : HTree) : HTree → List Nat → Option (List Nat)
  | _, [] => some []
  | .leaf _, _ :: _ => none
  | .node l r, b :: rest =>
      if b = 48 then
        match l with
        | .leaf c => (huffmanDecodeAux root root rest).map (fun out => c :: out)
        | .node l2 r2 => huffmanDecodeAux root (.node l2 r2) rest
      else
        match r with
        | .leaf c => (huffmanDecodeAux root root rest).map (fun out => c :: out)
        | .node l2 r2 => huffmanDecodeAux root (.node l2 r2) rest

/-- `huffmanDecode` (lines 66-77). -/
def huffmanDecode (root : HTree) (encodedText : List Nat) : Option (List Nat) :=
  huffmanDecodeAux root root encodedText

/-- `threadedDecode` (lines 107-118): identical traversal restricted to
the index range `[begin, finish)` of the encoded text. -/
def threadedDecode (root : HTree) (encoded : List Nat) (first last : Nat) :
    Option (List Nat) :=
  huffmanDecodeAux root root ((encoded.drop first).take (last - first))

/-- Concatenation of the per-worker result segments
(`for (auto& part : segments) finalResult += part;`, line 217); `none`
if any worker hit undefined behaviour. -/
def joinSegments : List (Option (List Nat)) → Option (List Nat)
  | [] => some []
  | o :: os => (joinSegments os).bind (fun rest => o.map (fun s => s ++ rest))

/-- The multi-threaded decode of `decompressDataFile` (lines 202-217):
`slice = len / W`, worker `i` decodes `[i*slice, i*slice+slice)` and the
last worker decodes up to the end; the written output is the
concatenation of the segments. -/
def mtDecode (root : HTree) (enc : List Nat) (w : Nat) : Option (List Nat) :=
  joinSegments ((List.range w).map (fun i =>
    threadedDecode root enc (i * (enc.length / w))
      (if i = w - 1 then enc.length else i * (enc.length / w) + enc.length / w)))

/-- `writeHuffmanTree` (lines 80-89): tagged preorder token stream,
`'1'` (49) + byte value for a leaf, `'0'` (48) for an internal node. -/
def writeHuffmanTree : HTree → List Nat
  | .leaf c => [49, c]
  | .node l r => 48 :: (writeHuffmanTree l ++ writeHuffmanTree r)

/-- `readHuffmanTree` (lines 92-104) with explicit fuel (the C++ recursion
is bounded by the stream length for well-formed streams; reading past the
end of the stream is modelled as `none`). -/
def readHuffmanTreeAux : Nat → List Nat → Option (HTree × List Nat)
  | _, [] => none
  | 0, _ :: _ => none
  | fuel + 1, marker :: rest =>
      if marker = 49 then
        match rest with
        | [] => none
        | c :: rest2 => some (.leaf c, rest2)
      else
        match readHuffmanTreeAux fuel rest with
        | none => none
        | some (l, rest2) =>
            match readHuffmanTreeAux fuel rest2 with
            | none => none
            | some (r, rest3) => some (.node l r, rest3)

/-- `readHuffmanTree` applied to a byte stream. -/
def readHuffmanTree (s : List Nat) : Option (HTree × List Nat) :=
  readHuffmanTreeAux s.length s

/-- `countFrequencyThread` (lines 30-40): the local tally of worker
`[begin, finish)` for byte value `c`; the guarded merge adds these
tallies into the global map. -/
def countFrequencyThread (data : List Nat) (first last c : Nat) : Nat :=
  (((data.drop first).take (last - first)).count c)

/-- `countFrequencySingle` (lines 38-40). -/
def countFrequencySingle (data : List Nat) (c : Nat) : Nat :=
  data.count c

/-- Value of `freqMapMT[c]` after all workers joined (lines 131-141):
`slice = n / W`, worker `i` counts `[i*slice, i*slice + slice)`, the
last worker counts up to `n`; the merge sums the local tallies. -/
def freqMapMT (data : List Nat) (w : Nat) (c : Nat) : Nat :=
  ((List.range w).map (fun i =>
    countFrequencyThread data (i * (data.length / w))
      (if i = w - 1 then data.length else i * (data.length / w) + data.length / w) c)).sum

/-- One `pop` of the `priority_queue` with `HuffmanCompare` (lines 20-25,
156-165): remove a node of minimal frequency.  The C++ tie order among
equal frequencies is implementation-defined; the model removes the
earliest minimal entry, which matches the heap whenever the minimum is
unique (the only situations the theorems below evaluate). -/
def popMin : List (HTree × Nat) → Option ((HTree × Nat) × List (HTree × Nat))
  | [] => none
  | x :: xs =>
      match popMin xs with
      | none => some (x, [])
      | some (m, rest) =>
          if x.2 ≤ m.2 then some (x, xs) else some (m, x :: rest)

/-- The `while (minHeap.size() > 1)` loop of `compressDataFile`
(lines 159-167) followed by `root = minHeap.top()`.  An empty heap means
`top()` on an empty `priority_queue`: undefined behaviour, modelled as
`none`. -/
def buildLoop : Nat → List (HTree × Nat) → Option HTree
  | _, [] => none
  | _, [x] => some x.1
  | 0, _ :: _ :: _ => none
  | fuel + 1, x :: y :: rest =>
      match popMin (x :: y :: rest) with
      | none => none
      | some (a, l1) =>
          match popMin l1 with
          | none => none
          | some (b, l2) =>
              buildLoop fuel ((HTree.node a.1 b.1, a.2 + b.2) :: l2)

/-- Huffman tree construction from the seeded heap (lines 156-167). -/
def buildHuffmanTree (seed : List (HTree × Nat)) : Option HTree :=
  buildLoop seed.length seed

/-- The heap seeding `for (auto& pair : freqMapMT) minHeap.push(...)`
(lines 157-158).  The iteration order of `unordered_map` is
implementation-defined; the model iterates byte values in ascending
order.  The theorems below only evaluate seeds with at most one entry
or with pairwise distinct frequencies, where the order is irrelevant. -/
def seedOf (data : List Nat) : List (HTree × Nat) :=
  (List.range 256).filterMap (fun c =>
    if data.count c = 0 then none else some (HTree.leaf c, data.count c))

/-- `compressDataFile` (lines 121-179) as a buffer-to-artifact function:
build the tree from the frequency table, derive codes, encode, and write
`tree tokens ++ '\n' ++ payload`.  `none` models the undefined behaviour
on an empty heap. -/
def compressArtifact (data : List Nat) : Option (List Nat) :=
  match buildHuffmanTree (seedOf data) with
  | none => none
  | some root =>
      some (writeHuffmanTree root ++ [10] ++ huffmanEncode data (codeTableOf root))

/-- `decompressDataFile` (lines 182-229) as an artifact-to-buffer
function: read the tree, skip one delimiter byte, and return the
multi-threaded decode (the function writes `finalResult`, the
concatenation of the worker segments, to the output file). -/
def decompressArtifact (file : List Nat) (w : Nat) : Option (List Nat) :=
  match readHuffmanTree file with
  | none => none
  | some (root, rest) => mtDecode root (rest.drop 1) w

/-- The full pipeline: compress, then decompress with `w` threads. -/
def roundTrip (data : List Nat) (w : Nat) : Option (List Nat) :=
  (compressArtifact data).bind (fun art => decompressArtifact art w)

/-- `p` is a code-word boundary of the encoding of `data`: some prefix of
the input encodes to exactly `p` bits. -/
def CodewordBoundary (data : List Nat) (table : Nat → List Nat) (p : Nat) : Prop :=
  ∃ k, p = (huffmanEncode (data.take k) table).length

/-- Root-to-leaf paths: `ReachesLeaf t p c` states that walking `p` from
`t` (48 goes left, anything else emitted by `createHuffmanCodes` is 49
and goes right) ends at a leaf holding `c`. -/
inductive ReachesLeaf : HTree → List Nat → Nat → Prop
  | leaf (c : Nat) : ReachesLeaf (.leaf c) [] c
  | left {l r : HTree} {p : List Nat} {c : Nat} :
      ReachesLeaf l p c → ReachesLeaf (.node l r) (48 :: p) c
  | right {l r : HTree} {p : List Nat} {c : Nat} :
      ReachesLeaf r p c → ReachesLeaf (.node l r) (49 :: p) c

/-- C5: the pipeline does not short-circuit on empty input; it seeds an
empty heap and calls `minHeap.top()` on it (undefined behaviour, `none`),
instead of producing an empty artifact. -/
theorem compress_empty_is_ub :
    seedOf [] = [] ∧ buildHuffmanTree [] = none ∧ compressArtifact [] = none := by
  refine ⟨?_, rfl, ?_⟩ <;> decide

/-- C4: on a single-distinct-byte input the built tree is a lone leaf,
but `createHuffmanCodes` assigns it the empty code (not a one-bit code),
encoding yields zero bits per byte, and decoding a genuine
one-bit-per-symbol stream against the leaf-only tree dereferences a null
child (modelled `none`) rather than succeeding. -/
theorem single_symbol_zero_bits :
    buildHuffmanTree (seedOf [97, 97]) = some (.leaf 97) ∧
    lookupCode (.leaf 97) 97 = some [] ∧
    (∀ n : Nat, huffmanEncode (List.replicate n 97) (codeTableOf (.leaf 97)) = []) ∧
    huffmanDecode (.leaf 97) [48] = none := by
  refine ⟨by decide, by decide, ?_, rfl⟩
  intro n
  induction n with
  | zero => rfl
  | succ n ih =>
      have h97 : codeTableOf (HTree.leaf 97) 97 = [] := by decide
      calc huffmanEncode (List.replicate (n + 1) 97) (codeTableOf (.leaf 97))
          = codeTableOf (.leaf 97) 97 ++
              huffmanEncode (List.replicate n 97) (codeTableOf (.leaf 97)) := by
            simp [huffmanEncode, List.replicate_succ]
        _ = [] := by rw [h97, ih]; rfl

/-- C1: the round trip fails at the single-distinct-byte buffer `"aa"`
with thread count 1: the artifact carries an empty payload (the lone
leaf's code is empty) and decompression returns the empty buffer. -/
theorem roundTrip_fails_on_aa :
    roundTrip [97, 97] 1 = some [] ∧ ([] : List Nat) ≠ [97, 97] := by
  refine ⟨by decide, by decide⟩

/-- C6: truncating a valid artifact's payload by one bit is not rejected:
decompression silently returns a shorter buffer.  The input `"abbcccc"`
compresses to a deterministic artifact (all heap keys distinct); dropping
the last payload bit decodes, without any error, to `"abbccc"`. -/
theorem truncation_not_rejected :
    compressArtifact [97, 98, 98, 99, 99, 99, 99] =
      some ([48, 48, 49, 97, 49, 98, 49, 99] ++ [10] ++
        [48, 48, 48, 49, 48, 49, 49, 49, 49, 49]) ∧
    decompressArtifact
      (([48, 48, 49, 97, 49, 98, 49, 99] ++ [10] ++
        [48, 48, 48, 49, 48, 49, 49, 49, 49, 49]).dropLast) 1 =
      some [97, 98, 98, 99, 99, 99] := by
  refine ⟨by decide, by decide⟩

/-- Reading back the token stream of `t` followed by any suffix
reconstructs `t` and leaves the suffix, for any sufficient fuel. -/
lemma readHuffmanTreeAux_write (t : HTree) : ∀ (fuel : Nat) (rest : List Nat),
    (writeHuffmanTree t).length ≤ fuel →
    readHuffmanTreeAux fuel (writeHuffmanTree t ++ rest) = some (t, rest) := by
  induction t with
  | leaf c =>
      intro fuel rest h
      cases fuel with
      | zero => simp [writeHuffmanTree] at h
      | succ f => simp [writeHuffmanTree, readHuffmanTreeAux]
  | node l r ihl ihr =>
      intro fuel rest h
      cases fuel with
      | zero => simp [writeHuffmanTree] at h
      | succ f =>
          have hl : (writeHuffmanTree l).length ≤ f := by
            simp [writeHuffmanTree, List.length_append] at h
            omega
          have hr : (writeHuffmanTree r).length ≤ f := by
            simp [writeHuffmanTree, List.length_append] at h
            omega
          simp only [writeHuffmanTree, List.cons_append, List.append_assoc]
          simp only [readHuffmanTreeAux]
          rw [if_neg (by decide)]
          rw [ihl f (writeHuffmanTree r ++ rest) hl]
          dsimp only
          rw [ihr f rest hr]

/-- C7: deserializing the tagged-preorder token stream produced by
serialization reconstructs every strict binary tree exactly, and the
format is self-delimiting: any trailing bytes are left untouched. -/
theorem writeHuffmanTree_readHuffmanTree_roundTrip (t : HTree) (rest : List Nat) :
    readHuffmanTree (writeHuffmanTree t ++ rest) = some (t, rest) := by
  apply readHuffmanTreeAux_write
  simp [readHuffmanTree, List.length_append]

/-- Adjacent index ranges tally additively. -/
lemma count_range_split (data : List Nat) (c a b d : Nat) (hab : a ≤ b) (hbd : b ≤ d) :
    countFrequencyThread data a b c + countFrequencyThread data b d c =
      countFrequencyThread data a d c := by
  unfold countFrequencyThread
  have h1 : d - a = (b - a) + (d - b) := by omega
  have h2 : a + (b - a) = b := by omega
  rw [h1, List.take_add, List.count_append, List.drop_drop, h2]

/-- The first `w` equal slices tally to the tally of `[0, w*s)`. -/
lemma sum_slices (data : List Nat) (c s : Nat) : ∀ w : Nat,
    ((List.range w).map (fun i =>
      countFrequencyThread data (i * s) (i * s + s) c)).sum =
    countFrequencyThread data 0 (w * s) c := by
  intro w
  induction w with
  | zero => simp [countFrequencyThread]
  | succ w ih =>
      rw [List.range_succ, List.map_append, List.sum_append]
      simp only [List.map_cons, List.map_nil, List.sum_cons, List.sum_nil, Nat.add_zero]
      rw [ih, Nat.succ_mul]
      exact count_range_split data c 0 (w * s) (w * s + s) (Nat.zero_le _)
        (Nat.le_add_right _ _)

/-- C3: for every input buffer and worker count `W ≥ 1`, the merged
multi-threaded frequency table equals the sequential single-pass count,
for every byte value (in particular for empty input and `W` larger than
the input length). -/
theorem freqMapMT_eq_countFrequencySingle (data : List Nat) (w : Nat) (hw : 1 ≤ w) :
    ∀ c, freqMapMT data w c = countFrequencySingle data c := by
  intro c
  obtain ⟨w', rfl⟩ : ∃ w', w = w' + 1 := ⟨w - 1, by omega⟩
  unfold freqMapMT
  rw [List.range_succ, List.map_append, List.sum_append]
  simp only [List.map_cons, List.map_nil, List.sum_cons, List.sum_nil, Nat.add_zero]
  rw [if_pos (by omega)]
  have hmap : (List.range w').map (fun i =>
      countFrequencyThread data (i * (data.length / (w' + 1)))
        (if i = w' + 1 - 1 then data.length
         else i * (data.length / (w' + 1)) + data.length / (w' + 1)) c) =
    (List.range w').map (fun i =>
      countFrequencyThread data (i * (data.length / (w' + 1)))
        (i * (data.length / (w' + 1)) + data.length / (w' + 1)) c) := by
    apply List.map_congr_left
    intro i hi
    rw [if_neg]
    have := List.mem_range.mp hi
    omega
  rw [hmap, sum_slices]
  have hle : w' * (data.length / (w' + 1)) ≤ data.length := by
    calc w' * (data.length / (w' + 1))
        ≤ (w' + 1) * (data.length / (w' + 1)) := Nat.mul_le_mul_right _ (by omega)
      _ = (data.length / (w' + 1)) * (w' + 1) := Nat.mul_comm _ _
      _ ≤ data.length := Nat.div_mul_le_self _ _
  rw [count_range_split data c 0 (w' * (data.length / (w' + 1))) data.length
    (Nat.zero_le _) hle]
  unfold countFrequencyThread countFrequencySingle
  simp

/-- Witness for C3 at a concrete buffer and worker count. -/
theorem freqMapMT_eq_countFrequencySingle_witness :
    1 ≤ 2 ∧ freqMapMT [5, 6, 5] 2 5 = countFrequencySingle [5, 6, 5] 5 :=
  ⟨by decide, freqMapMT_eq_countFrequencySingle [5, 6, 5] 2 (by decide) 5⟩

/-- The decoder only tests each payload character against `'0'` (48):
normalising every other character to `'1'` (49) leaves the traversal
unchanged. -/
lemma huffmanDecodeAux_map_binary (root : HTree) : ∀ (bits : List Nat) (curr : HTree),
    huffmanDecodeAux root curr bits =
      huffmanDecodeAux root curr (bits.map (fun b => if b = 48 then 48 else 49)) := by
  intro bits
  induction bits with
  | nil => intro curr; rfl
  | cons b rest ih =>
      intro curr
      cases curr with
      | leaf c => simp [huffmanDecodeAux]
      | node l r =>
          simp only [List.map_cons]
          by_cases hb : b = 48
          · rw [hb]
            have h1 : (if (48 : Nat) = 48 then (48 : Nat) else 49) = 48 := rfl
            rw [h1]
            simp only [huffmanDecodeAux, if_true, if_false]
            cases l with
            | leaf c =>
                dsimp only
                rw [ih root]
            | node l2 r2 => exact ih _
          · have h1 : (if b = 48 then (48 : Nat) else 49) = 49 := if_neg hb
            rw [h1]
            simp only [huffmanDecodeAux, if_true, if_false]
            rw [if_neg hb, if_neg (show ¬(49 : Nat) = 48 by decide)]
            cases r with
            | leaf c =>
                dsimp only
                rw [ih root]
            | node l2 r2 => exact ih _

/-- Under an internal root the traversal never dereferences a null
child: decode succeeds on every payload. -/
lemma huffmanDecodeAux_internal_total (l0 r0 : HTree) : ∀ (bits : List Nat)
    (cl cr : HTree), ∃ out, huffmanDecodeAux (.node l0 r0) (.node cl cr) bits = some out := by
  intro bits
  induction bits with
  | nil => exact fun cl cr => ⟨[], rfl⟩
  | cons b rest ih =>
      intro cl cr
      by_cases hb : b = 48
      · subst hb
        cases cl with
        | leaf c =>
            obtain ⟨out, hout⟩ := ih l0 r0
            exact ⟨c :: out, by simp [huffmanDecodeAux, hout]⟩
        | node a2 b2 =>
            obtain ⟨out, hout⟩ := ih a2 b2
            exact ⟨out, by simp [huffmanDecodeAux, hout]⟩
      · cases cr with
        | leaf c =>
            obtain ⟨out, hout⟩ := ih l0 r0
            refine ⟨c :: out, ?_⟩
            simp only [huffmanDecodeAux, if_neg hb]
            rw [hout]
            rfl
        | node a2 b2 =>
            obtain ⟨out, hout⟩ := ih a2 b2
            refine ⟨out, ?_⟩
            simp only [huffmanDecodeAux, if_neg hb]
            exact hout

/-- C10: both decoders treat `'0'` (48) as a left descent and every
other character as a right descent, so a payload with characters outside
`{'0','1'}` decodes exactly as if each such character were `'1'` (49);
and under an internal root every payload is accepted (decode returns a
result, never an error). -/
theorem decoders_accept_nonbinary_as_right :
    (∀ (t : HTree) (bits : List Nat),
      huffmanDecode t bits =
        huffmanDecode t (bits.map (fun b => if b = 48 then 48 else 49))) ∧
    (∀ (t : HTree) (enc : List Nat) (first last : Nat),
      threadedDecode t enc first last =
        threadedDecode t (enc.map (fun b => if b = 48 then 48 else 49)) first last) ∧
    (∀ (l r : HTree) (bits : List Nat),
      ∃ out, huffmanDecode (.node l r) bits = some out) := by
  refine ⟨?_, ?_, ?_⟩
  · intro t bits
    exact huffmanDecodeAux_map_binary t bits t
  · intro t enc first last
    unfold threadedDecode
    rw [← List.map_drop, ← List.map_take]
    exact huffmanDecodeAux_map_binary t _ t
  · intro l r bits
    exact huffmanDecodeAux_internal_total l r bits l r

/-- C9: the encoded bit-sequence length is the frequency-weighted sum of
code lengths over the 256 byte values. -/
theorem huffmanEncode_length (data : List Nat) (table : Nat → List Nat)
    (hdata : ∀ c ∈ data, c < 256) :
    (huffmanEncode data table).length =
      ∑ c ∈ Finset.range 256, data.count c * (table c).length := by
  induction data with
  | nil => simp [huffmanEncode]
  | cons ch rest ih =>
      have hch : ch < 256 := hdata ch (List.mem_cons_self _ _)
      have hrest : ∀ c ∈ rest, c < 256 := fun c hc => hdata c (List.mem_cons_of_mem _ hc)
      have hlen : (huffmanEncode (ch :: rest) table).length =
          (table ch).length + (huffmanEncode rest table).length := by
        simp [huffmanEncode]
      rw [hlen, ih hrest]
      have hsum : ∑ c ∈ Finset.range 256, (ch :: rest).count c * (table c).length
          = ∑ c ∈ Finset.range 256,
              (rest.count c * (table c).length +
                (if ch = c then (table c).length else 0)) := by
        apply Finset.sum_congr rfl
        intro c _
        rw [List.count_cons, Nat.add_mul]
        congr 1
        by_cases h : ch = c
        · simp [h]
        · simp [h, Ne.symm h]
      rw [hsum, Finset.sum_add_distrib, Finset.sum_ite_eq,
        if_pos (Finset.mem_range.mpr hch)]
      exact Nat.add_comm _ _

/-- Witness for C9 at a concrete buffer and code table. -/
theorem huffmanEncode_length_witness :
    (∀ c ∈ [7, 7, 9], c < 256) ∧
    (huffmanEncode [7, 7, 9] (fun c => if c = 7 then [48, 49] else [49])).length =
      ∑ c ∈ Finset.range 256,
        [7, 7, 9].count c * ((fun c => if c = 7 then [48, 49] else [49]) c).length :=
  ⟨by decide, huffmanEncode_length [7, 7, 9] _ (by decide)⟩

/-- Every code recorded under accumulated prefix `curr` starts with `curr`. -/
lemma codes_start (t : HTree) : ∀ (curr : List Nat) (e : Nat × List Nat),
    e ∈ createHuffmanCodes t curr → curr <+: e.2 := by
  induction t with
  | leaf c =>
      intro curr e he
      simp only [createHuffmanCodes, List.mem_singleton] at he
      subst he
      exact List.prefix_rfl
  | node l r ihl ihr =>
      intro curr e he
      simp only [createHuffmanCodes, List.mem_append] at he
      rcases he with h | h
      · exact (List.prefix_append curr [48]).trans (ihl _ e h)
      · exact (List.prefix_append curr [49]).trans (ihr _ e h)

/-- Codes diverging at one position are never prefixes of one another. -/
lemma codes_fork_independent {curr x y : List Nat} {a b : Nat} (hab : a ≠ b)
    (hx : curr ++ [a] <+: x) (hy : curr ++ [b] <+: y) : ¬ x <+: y := by
  intro hxy
  obtain ⟨t1, ht1⟩ := hx.trans hxy
  obtain ⟨t2, ht2⟩ := hy
  rw [← ht2] at ht1
  rw [List.append_assoc, List.append_assoc] at ht1
  have hc := List.append_cancel_left ht1
  simp only [List.singleton_append, List.cons.injEq] at hc
  exact hab hc.1

/-- The recorded code list is pairwise mutually prefix-free. -/
lemma codes_pairwise (t : HTree) : ∀ curr : List Nat,
    (createHuffmanCodes t curr).Pairwise
      (fun e1 e2 => ¬ e1.2 <+: e2.2 ∧ ¬ e2.2 <+: e1.2) := by
  induction t with
  | leaf c => intro curr; simp [createHuffmanCodes]
  | node l r ihl ihr =>
      intro curr
      simp only [createHuffmanCodes]
      rw [List.pairwise_append]
      refine ⟨ihl _, ihr _, ?_⟩
      intro e1 h1 e2 h2
      have hx := codes_start l (curr ++ [48]) e1 h1
      have hy := codes_start r (curr ++ [49]) e2 h2
      exact ⟨codes_fork_independent (by decide) hx hy, codes_fork_independent (by decide) hy hx⟩

/-- A successful map lookup comes from a recorded assignment. -/
lemma lookupCode_mem {t : HTree} {c : Nat} {p : List Nat}
    (h : lookupCode t c = some p) : (c, p) ∈ createHuffmanCodes t [] := by
  unfold lookupCode at h
  obtain ⟨e, he1, he2⟩ := Option.map_eq_some'.mp h
  have hmem : e ∈ (createHuffmanCodes t []).filter (fun q => q.1 == c) := by
    have hx : e ∈ ((createHuffmanCodes t []).filter (fun q => q.1 == c)).getLast? := by
      rw [Option.mem_def]
      exact he1
    obtain ⟨hne, heq⟩ := List.mem_getLast?_eq_getLast hx
    rw [heq]
    exact List.getLast_mem hne
  rw [List.mem_filter] at hmem
  obtain ⟨hmem1, hkey⟩ := hmem
  have hk : e.1 = c := by simpa using hkey
  have he : e = (c, p) := Prod.ext hk he2
  rw [he] at hmem1
  exact hmem1

/-- C8: for the code table derived from any tree, the code of one byte
value is never a prefix of the code of a different byte value. -/
theorem createHuffmanCodes_prefix_free (t : HTree) (c1 c2 : Nat) (p1 p2 : List Nat)
    (hne : c1 ≠ c2) (h1 : lookupCode t c1 = some p1)
    (h2 : lookupCode t c2 = some p2) : ¬ p1 <+: p2 := by
  have m1 := lookupCode_mem h1
  have m2 := lookupCode_mem h2
  have hsym : Symmetric
      (fun (e1 e2 : Nat × List Nat) => ¬ e1.2 <+: e2.2 ∧ ¬ e2.2 <+: e1.2) :=
    fun e1 e2 h => ⟨h.2, h.1⟩
  have hpw := codes_pairwise t []
  have hne2 : ((c1, p1) : Nat × List Nat) ≠ (c2, p2) := by
    intro h
    exact hne (congrArg Prod.fst h)
  exact ((hpw.forall hsym) m1 m2 hne2).1

/-- Witness for C8 at a concrete two-leaf tree. -/
theorem createHuffmanCodes_prefix_free_witness :
    ((0 : Nat) ≠ 1 ∧ lookupCode (.node (.leaf 0) (.leaf 1)) 0 = some [48] ∧
      lookupCode (.node (.leaf 0) (.leaf 1)) 1 = some [49]) ∧
    ¬ [48] <+: [49] :=
  ⟨⟨by decide, by decide, by decide⟩,
    createHuffmanCodes_prefix_free (.node (.leaf 0) (.leaf 1)) 0 1 [48] [49]
      (by decide) (by decide) (by decide)⟩

/-- Every recorded code is the accumulated prefix followed by a
root-to-leaf path for its byte value. -/
lemma mem_codes_reaches (t : HTree) : ∀ (curr : List Nat) (c : Nat) (p : List Nat),
    (c, p) ∈ createHuffmanCodes t curr → ∃ q, p = curr ++ q ∧ ReachesLeaf t q c := by
  induction t with
  | leaf c0 =>
      intro curr c p h
      simp only [createHuffmanCodes, List.mem_singleton, Prod.mk.injEq] at h
      obtain ⟨h1, h2⟩ := h
      subst h1
      subst h2
      exact ⟨[], by simp, ReachesLeaf.leaf _⟩
  | node l r ihl ihr =>
      intro curr c p h
      simp only [createHuffmanCodes, List.mem_append] at h
      rcases h with h | h
      · obtain ⟨q, hq, hrl⟩ := ihl (curr ++ [48]) c p h
        exact ⟨48 :: q, by simp [hq], ReachesLeaf.left hrl⟩
      · obtain ⟨q, hq, hrl⟩ := ihr (curr ++ [49]) c p h
        exact ⟨49 :: q, by simp [hq], ReachesLeaf.right hrl⟩

/-- A successful lookup yields a root-to-leaf path. -/
lemma lookupCode_reaches {t : HTree} {c : Nat} {p : List Nat}
    (h : lookupCode t c = some p) : ReachesLeaf t p c := by
  obtain ⟨q, hq, hrl⟩ := mem_codes_reaches t [] c p (lookupCode_mem h)
  simp only [List.nil_append] at hq
  rw [hq]
  exact hrl

/-- Paths into an internal node are non-empty. -/
lemma reaches_nonempty {l r : HTree} {p : List Nat} {c : Nat}
    (h : ReachesLeaf (.node l r) p c) : p ≠ [] := by
  cases h <;> simp

/-- Encoding distributes over concatenation. -/
lemma encode_append (xs ys : List Nat) (table : Nat → List Nat) :
    huffmanEncode (xs ++ ys) table = huffmanEncode xs table ++ huffmanEncode ys table := by
  simp [huffmanEncode]

/-- Decoding a full codeword from the matching position emits its byte
and restarts at the root. -/
lemma decode_reaches (root : HTree) : ∀ (p : List Nat) (curr : HTree) (c : Nat)
    (rest : List Nat), ReachesLeaf curr p c → p ≠ [] →
    huffmanDecodeAux root curr (p ++ rest) =
      (huffmanDecodeAux root root rest).map (fun out => c :: out) := by
  intro p
  induction p with
  | nil => intro curr c rest h hne; exact absurd rfl hne
  | cons b p' ih =>
      intro curr c rest h hne
      cases h with
      | left h' =>
          cases p' with
          | nil =>
              cases h'
              rfl
          | cons b2 p'' =>
              cases h' with
              | left h'' => exact ih _ c rest (ReachesLeaf.left h'') (by simp)
              | right h'' => exact ih _ c rest (ReachesLeaf.right h'') (by simp)
      | right h' =>
          cases p' with
          | nil =>
              cases h'
              rfl
          | cons b2 p'' =>
              cases h' with
              | left h'' => exact ih _ c rest (ReachesLeaf.left h'') (by simp)
              | right h'' => exact ih _ c rest (ReachesLeaf.right h'') (by simp)

/-- Decoding an encoded buffer followed by anything emits the buffer and
continues on the remainder. -/
lemma decode_encode_aux (root : HTree) : ∀ (data rest : List Nat),
    (∀ ch ∈ data, ∃ p, p ≠ [] ∧ lookupCode root ch = some p) →
    huffmanDecodeAux root root (huffmanEncode data (codeTableOf root) ++ rest) =
      (huffmanDecodeAux root root rest).map (fun out => data ++ out) := by
  intro data
  induction data with
  | nil =>
      intro rest h
      cases haux : huffmanDecodeAux root root rest <;> simp [huffmanEncode, haux]
  | cons ch data' ih =>
      intro rest h
      obtain ⟨p, hpne, hp⟩ := h ch (List.mem_cons_self _ _)
      have htab : codeTableOf root ch = p := by simp [codeTableOf, hp]
      have hreach : ReachesLeaf root p ch := lookupCode_reaches hp
      have hhead : huffmanEncode (ch :: data') (codeTableOf root) =
          p ++ huffmanEncode data' (codeTableOf root) := by
        simp [huffmanEncode, htab]
      calc huffmanDecodeAux root root
            (huffmanEncode (ch :: data') (codeTableOf root) ++ rest)
          = huffmanDecodeAux root root
              (p ++ (huffmanEncode data' (codeTableOf root) ++ rest)) := by
            rw [hhead, List.append_assoc]
        _ = (huffmanDecodeAux root root
              (huffmanEncode data' (codeTableOf root) ++ rest)).map
                (fun out => ch :: out) :=
            decode_reaches root p root ch _ hreach hpne
        _ = ((huffmanDecodeAux root root rest).map
              (fun out => data' ++ out)).map (fun out => ch :: out) := by
            rw [ih rest (fun c hc => h c (List.mem_cons_of_mem _ hc))]
        _ = (huffmanDecodeAux root root rest).map (fun out => (ch :: data') ++ out) := by
            cases haux : huffmanDecodeAux root root rest <;> simp [haux]

/-- The decoder accepts the empty bit sequence from any state. -/
lemma decode_nil (root : HTree) : ∀ curr : HTree,
    huffmanDecodeAux root curr [] = some [] := by
  intro curr
  cases curr <;> rfl

/-- Sequential decode inverts encode when every byte has a non-empty code. -/
lemma decode_encode (root : HTree) (data : List Nat)
    (hcov : ∀ ch ∈ data, ∃ p, p ≠ [] ∧ lookupCode root ch = some p) :
    huffmanDecodeAux root root (huffmanEncode data (codeTableOf root)) = some data := by
  have h := decode_encode_aux root data [] hcov
  rw [List.append_nil, decode_nil root root] at h
  simpa using h

/-- If every byte's table entry is empty the encoding is empty. -/
lemma encode_all_nil {data : List Nat} {table : Nat → List Nat}
    (h : ∀ ch ∈ data, table ch = []) : huffmanEncode data table = [] := by
  induction data with
  | nil => rfl
  | cons ch d ih =>
      have hstep : huffmanEncode (ch :: d) table = table ch ++ huffmanEncode d table := by
        simp [huffmanEncode]
      rw [hstep, h ch (List.mem_cons_self _ _),
        ih (fun c hc => h c (List.mem_cons_of_mem _ hc))]
      rfl

/-- With non-empty codes, only the empty buffer encodes to nothing. -/
lemma data_nil_of_encode_nil {root : HTree} {data : List Nat}
    (hcov : ∀ ch ∈ data, ∃ p, p ≠ [] ∧ lookupCode root ch = some p)
    (h : huffmanEncode data (codeTableOf root) = []) : data = [] := by
  cases data with
  | nil => rfl
  | cons ch d =>
      obtain ⟨p, hpne, hp⟩ := hcov ch (List.mem_cons_self _ _)
      have hstep : huffmanEncode (ch :: d) (codeTableOf root) =
          p ++ huffmanEncode d (codeTableOf root) := by
        simp [huffmanEncode, codeTableOf, hp]
      rw [hstep] at h
      exact absurd (List.append_eq_nil.mp h).1 hpne

/-- Encoded length of a prefix is monotone in the prefix length. -/
lemma encode_take_mono (data : List Nat) (table : Nat → List Nat) {k1 k2 : Nat}
    (h : k1 ≤ k2) :
    (huffmanEncode (data.take k1) table).length ≤
      (huffmanEncode (data.take k2) table).length := by
  rw [show k2 = k1 + (k2 - k1) from by omega, List.take_add, encode_append,
    List.length_append]
  exact Nat.le_add_right _ _

/-- Joining segments that are all empty yields the empty result. -/
lemma joinSegments_all_nil : ∀ (segs : List (Option (List Nat))),
    (∀ o ∈ segs, o = some []) → joinSegments segs = some [] := by
  intro segs
  induction segs with
  | nil => intro _; rfl
  | cons o os ih =>
      intro h
      have h1 : o = some [] := h o (List.mem_cons_self _ _)
      have h2 : joinSegments os = some [] :=
        ih (fun x hx => h x (List.mem_cons_of_mem _ hx))
      simp [joinSegments, h1, h2]

/-- If every range boundary is the encoded length of some input prefix,
the per-worker decodes of the ranges concatenate to the suffix of the
input that starts at the first boundary's prefix. -/
lemma split_decode (root : HTree) (data : List Nat)
    (hcov : ∀ ch ∈ data, ∃ p, p ≠ [] ∧ lookupCode root ch = some p) :
    ∀ (bs : List Nat) (k0 : Nat),
      bs.head? = some (huffmanEncode (data.take k0) (codeTableOf root)).length →
      bs.getLast? = some (huffmanEncode data (codeTableOf root)).length →
      List.Pairwise (fun a b => a ≤ b) bs →
      (∀ b ∈ bs, ∃ k, b = (huffmanEncode (data.take k) (codeTableOf root)).length) →
      joinSegments ((bs.zip bs.tail).map (fun pq =>
        threadedDecode root (huffmanEncode data (codeTableOf root)) pq.1 pq.2)) =
        some (data.drop k0) := by
  intro bs
  induction bs with
  | nil => intro k0 hh hl hpw hbd; simp at hh
  | cons b0 bs' ih =>
      intro k0 hh hl hpw hbd
      have hb0 : b0 = (huffmanEncode (data.take k0) (codeTableOf root)).length := by
        simpa using hh
      cases bs' with
      | nil =>
          have hlast : b0 = (huffmanEncode data (codeTableOf root)).length := by
            simpa using hl
          have hsplit : huffmanEncode data (codeTableOf root) =
              huffmanEncode (data.take k0) (codeTableOf root) ++
                huffmanEncode (data.drop k0) (codeTableOf root) := by
            rw [← encode_append, List.take_append_drop]
          have hlen : (huffmanEncode (data.drop k0) (codeTableOf root)).length = 0 := by
            have hc := congrArg List.length hsplit
            rw [List.length_append] at hc
            omega
          have hdnil : data.drop k0 = [] := by
            apply data_nil_of_encode_nil
              (fun ch hc => hcov ch (List.drop_subset _ _ hc))
            exact List.length_eq_zero.mp hlen
          simp [hdnil, joinSegments]
      | cons b1 bs'' =>
          obtain ⟨k1', hk1'⟩ := hbd b1 (by simp)
          have hpc := List.pairwise_cons.mp hpw
          have hble : b0 ≤ b1 := hpc.1 b1 (by simp)
          have hk1ex : ∃ k1, k0 ≤ k1 ∧
              b1 = (huffmanEncode (data.take k1) (codeTableOf root)).length := by
            by_cases hc : k0 ≤ k1'
            · exact ⟨k1', hc, hk1'⟩
            · have hle2 : b1 ≤ b0 := by
                rw [hk1', hb0]
                exact encode_take_mono data (codeTableOf root) (by omega)
              have heq : b1 = b0 := Nat.le_antisymm hle2 hble
              exact ⟨k0, Nat.le_refl _, by rw [heq, hb0]⟩
          obtain ⟨k1, hk01, hbk1⟩ := hk1ex
          have hmid : data.take k1 =
              data.take k0 ++ (data.drop k0).take (k1 - k0) := by
            have ht := List.take_add data k0 (k1 - k0)
            rwa [show k0 + (k1 - k0) = k1 from by omega] at ht
          have hd1 : (data.drop k0).drop (k1 - k0) = data.drop k1 := by
            rw [List.drop_drop]
            congr 1
            omega
          have hdropsplit : data.drop k0 =
              (data.drop k0).take (k1 - k0) ++ data.drop k1 := by
            rw [← hd1, List.take_append_drop]
          have hencdata : huffmanEncode data (codeTableOf root) =
              huffmanEncode (data.take k0) (codeTableOf root) ++
                (huffmanEncode ((data.drop k0).take (k1 - k0)) (codeTableOf root) ++
                  huffmanEncode (data.drop k1) (codeTableOf root)) := by
            calc huffmanEncode data (codeTableOf root)
                = huffmanEncode (data.take k0 ++ data.drop k0) (codeTableOf root) := by
                  rw [List.take_append_drop]
              _ = huffmanEncode (data.take k0) (codeTableOf root) ++
                    huffmanEncode (data.drop k0) (codeTableOf root) :=
                  encode_append _ _ _
              _ = _ := by
                  conv_lhs => rw [hdropsplit, encode_append]
          have hlenmid : b1 - b0 =
              (huffmanEncode ((data.drop k0).take (k1 - k0)) (codeTableOf root)).length := by
            have hlm : (huffmanEncode (data.take k1) (codeTableOf root)).length =
                (huffmanEncode (data.take k0) (codeTableOf root)).length +
                  (huffmanEncode ((data.drop k0).take (k1 - k0)) (codeTableOf root)).length := by
              rw [hmid, encode_append, List.length_append]
            omega
          have hseg1 : ((huffmanEncode data (codeTableOf root)).drop b0).take (b1 - b0) =
              huffmanEncode ((data.drop k0).take (k1 - k0)) (codeTableOf root) := by
            rw [hlenmid, hencdata, hb0, List.drop_left, List.take_left]
          have hdec1 : threadedDecode root (huffmanEncode data (codeTableOf root)) b0 b1 =
              some ((data.drop k0).take (k1 - k0)) := by
            unfold threadedDecode
            rw [hseg1]
            exact decode_encode root _
              (fun ch hc => hcov ch (List.drop_subset _ _ (List.take_subset _ _ hc)))
          have hIH := ih k1 (by simp [hbk1])
            (by rw [List.getLast?_cons_cons] at hl; exact hl)
            hpc.2
            (fun b hb => hbd b (List.mem_cons_of_mem _ hb))
          have hzip : ((b0 :: b1 :: bs'').zip ((b0 :: b1 :: bs'').tail)) =
              (b0, b1) :: ((b1 :: bs'').zip ((b1 :: bs'').tail)) := rfl
          rw [hzip, List.map_cons]
          simp only [joinSegments]
          rw [hIH, hdec1]
          conv_rhs => rw [hdropsplit]
          rfl

/-- C2: if every range boundary of a split of an encoded bit sequence
coincides with a code-word boundary (`CodewordBoundary`), the
concatenation of the independent root-relative range decodes
(`threadedDecode`) equals the sequential decode (`huffmanDecode`); and
the `len / W` index-based split used by `decompressDataFile` (`mtDecode`)
violates this on a concrete encoded input, giving a different result
from the sequential decode. -/
theorem threadedDecode_boundary_condition :
    (∀ (root : HTree) (data bs : List Nat),
      (∀ ch ∈ data, ∃ p, lookupCode root ch = some p) →
      bs.head? = some 0 →
      bs.getLast? = some (huffmanEncode data (codeTableOf root)).length →
      List.Chain' (fun a b => a ≤ b) bs →
      (∀ b ∈ bs, CodewordBoundary data (codeTableOf root) b) →
      joinSegments ((bs.zip bs.tail).map (fun pq =>
        threadedDecode root (huffmanEncode data (codeTableOf root)) pq.1 pq.2)) =
        huffmanDecode root (huffmanEncode data (codeTableOf root))) ∧
    huffmanEncode [97, 98, 98]
        (codeTableOf (.node (.leaf 97) (.node (.leaf 98) (.leaf 99)))) =
      [48, 49, 48, 49, 48] ∧
    mtDecode (.node (.leaf 97) (.node (.leaf 98) (.leaf 99)))
        [48, 49, 48, 49, 48] 2 ≠
      huffmanDecode (.node (.leaf 97) (.node (.leaf 98) (.leaf 99)))
        [48, 49, 48, 49, 48] := by
  refine ⟨?_, by decide, by decide⟩
  intro root data bs hcov hh hl hch hbd
  cases root with
  | leaf x =>
      have htab : ∀ ch ∈ data, codeTableOf (.leaf x) ch = [] := by
        intro ch hc
        obtain ⟨p, hp⟩ := hcov ch hc
        have hpn : p = [] := by
          have hrl := lookupCode_reaches hp
          cases hrl
          rfl
        rw [codeTableOf, hp, hpn]
        rfl
      have henc : huffmanEncode data (codeTableOf (.leaf x)) = [] := encode_all_nil htab
      rw [henc]
      have hsegs : ∀ o ∈ ((bs.zip bs.tail).map (fun pq =>
          threadedDecode (.leaf x) ([] : List Nat) pq.1 pq.2)), o = some [] := by
        intro o ho
        obtain ⟨pq, hpq, rfl⟩ := List.mem_map.mp ho
        unfold threadedDecode
        simp [decode_nil]
      rw [joinSegments_all_nil _ hsegs]
      unfold huffmanDecode
      rw [decode_nil]
  | node l r =>
      have hcov2 : ∀ ch ∈ data, ∃ p, p ≠ [] ∧ lookupCode (.node l r) ch = some p := by
        intro ch hc
        obtain ⟨p, hp⟩ := hcov ch hc
        exact ⟨p, reaches_nonempty (lookupCode_reaches hp), hp⟩
      have hseq := decode_encode (.node l r) data hcov2
      have hh0 : bs.head? =
          some ((huffmanEncode (data.take 0) (codeTableOf (.node l r))).length) := by
        rw [hh]
        simp [huffmanEncode]
      have hsplit := split_decode (.node l r) data hcov2 bs 0 hh0 hl
        (List.chain'_iff_pairwise.mp hch) hbd
      rw [List.drop_zero] at hsplit
      rw [hsplit]
      unfold huffmanDecode
      rw [hseq]

/-- Witness for C2's conditional part: two code-word-aligned ranges of a
two-symbol encoding decode to the same output as the sequential decode. -/
theorem threadedDecode_boundary_condition_witness :
    joinSegments (((([0, 1, 2] : List Nat)).zip (([0, 1, 2] : List Nat)).tail).map
      (fun pq => threadedDecode (.node (.leaf 97) (.leaf 98))
        (huffmanEncode [97, 98] (codeTableOf (.node (.leaf 97) (.leaf 98))))
        pq.1 pq.2)) =
    huffmanDecode (.node (.leaf 97) (.leaf 98))
      (huffmanEncode [97, 98] (codeTableOf (.node (.leaf 97) (.leaf 98)))) := by
  apply threadedDecode_boundary_condition.1 (.node (.leaf 97) (.leaf 98))
    [97, 98] [0, 1, 2]
  · intro ch hc
    fin_cases hc
    · exact ⟨[48], by decide⟩
    · exact ⟨[49], by decide⟩
  · rfl
  · decide
  · rw [List.chain'_iff_pairwise]
    decide
  · intro b hb
    fin_cases hb
    · exact ⟨0, by decide⟩
    · exact ⟨1, by decide⟩
    · exact ⟨2, by decide⟩
